import Mathlib

/-!
Verification of the CLAHE repository (`src/CLAHE.py`).

The repository script delegates the CLAHE transform itself to the library
call `cv2.createCLAHE(...).apply(...)` (lines 40-43); the algorithm's code
is therefore not part of the repository sources.  Following the spec
(sections 3, 4, 6, 7), the core transform is modelled here from the spec's
words; each such definition is marked `Modelled from the spec:`.  The
orchestration that *is* in `src/CLAHE.py` (`apply_clahe`'s channel
handling and decode-failure path, `process_all_images`' loop) is embedded
from the source.
-/

/-- Modelled from the spec: a Plane is a 2D grid of intensity samples,
width `W`, height `H`, samples stored row-major. -/
structure Plane where
  W : Nat
  H : Nat
  data : List Nat
  deriving DecidableEq, Repr

/-- Sample of plane `p` at column `x`, row `y` (row-major access). -/
def Plane.pix (p : Plane) (x y : Nat) : Nat :=
  p.data.getD (y * p.W + x) 0

/-- All samples of the plane in row-major order. -/
def Plane.pixels (p : Plane) : List Nat :=
  (List.range p.H).flatMap (fun y => (List.range p.W).map (fun x => p.pix x y))

/-- Modelled from the spec: tile width/height is the ceiling of the plane
extent divided by the grid extent (`ceil(W / tilesX)`). -/
def tileSize (extent grid : Nat) : Nat :=
  (extent + grid - 1) / grid

/-- Modelled from the spec: tile `t` along one axis starts at `t * tileSize`. -/
def tileLo (extent grid t : Nat) : Nat :=
  t * tileSize extent grid

/-- Modelled from the spec: tile `t` along one axis ends at
`min ((t+1) * tileSize) extent`; edge tiles absorb the remainder. -/
def tileHi (extent grid t : Nat) : Nat :=
  min ((t + 1) * tileSize extent grid) extent

/-- Modelled from the spec: pixel coordinate `x` lies in tile `t` along an
axis of the given extent. -/
def inTile (extent grid t x : Nat) : Prop :=
  tileLo extent grid t ≤ x ∧ x < tileHi extent grid t

instance (extent grid t x : Nat) : Decidable (inTile extent grid t x) := by
  unfold inTile; infer_instance

/-- Modelled from the spec: the pixels of tile `(tx, ty)`, a view over the
plane, in row-major order. -/
def tilePixels (p : Plane) (gx gy tx ty : Nat) : List Nat :=
  (List.range (tileHi p.H gy ty - tileLo p.H gy ty)).flatMap (fun dy =>
    (List.range (tileHi p.W gx tx - tileLo p.W gx tx)).map (fun dx =>
      p.pix (tileLo p.W gx tx + dx) (tileLo p.H gy ty + dy)))

/-- Modelled from the spec: histogram of length `L`; each pixel's integer
intensity increments its corresponding bin. -/
def histogram (L : Nat) (pxs : List Nat) : List Nat :=
  (List.range L).map (fun v => pxs.count v)

/-- Add `e` counts uniformly across the bins: each bin gains `e / L`, and
the remainder `e % L` goes one apiece to the lowest-index bins (the spec's
deterministic lowest-index remainder policy). -/
def addUniform (h : List Nat) (e : Nat) : List Nat :=
  h.mapIdx (fun i b => b + e / h.length + if i < e % h.length then 1 else 0)

/-- Cap every bin at `c`. -/
def capBins (h : List Nat) (c : Nat) : List Nat :=
  h.map (fun b => min b c)

/-- Modelled from the spec: the bounded iterative redistribution of
section 4.3 step 3: each pass spreads the excess uniformly and re-caps,
collecting the new overflow; after the fixed pass bound the residual is
distributed uniformly without capping so that total count is conserved
exactly (accepted saturation behaviour). -/
def redistribute (c : Nat) : Nat → List Nat → Nat → List Nat
  | 0, h, e => addUniform h e
  | k + 1, h, e =>
    if e = 0 then h
    else redistribute c k (capBins (addUniform h e) c)
      ((addUniform h e).sum - (capBins (addUniform h e) c).sum)

/-- Fixed pass bound for the iterative redistribution (spec section 9:
"cap it with a fixed iteration bound"). -/
def passBound : Nat := 8

/-- Modelled from the spec: the clip-and-redistribute engine of section
4.3.  The clip limit is `clipFactor * tilePixelCount / L` (taken at its
integer floor so integer bins compare against it exactly); `clipFactor ≤ 0`
makes the whole step a no-op. -/
def clipAndRedistribute (h : List Nat) (f : ℚ) (n : Nat) : List Nat :=
  if f ≤ 0 then h
  else
    let c := Nat.floor (f * n / h.length)
    let h1 := capBins h c
    redistribute c passBound h1 (h.sum - h1.sum)

/-- Cumulative distribution `cdf[i] = sum(clipped[0..i])`. -/
def cdfAt (h : List Nat) (i : Nat) : Nat :=
  (h.take (i + 1)).sum

/-- Modelled from the spec: the mapping-function builder of section 4.4:
`mapping[i] = round(cdf[i] * (L-1) / tilePixelCount)`, and the identity
mapping when the tile pixel count is zero (degenerate tile). -/
def mappingOf (h : List Nat) (n L : Nat) : List Nat :=
  if n = 0 then List.range L
  else (List.range L).map (fun i =>
    (round ((cdfAt h i : ℚ) * ((L : ℚ) - 1) / (n : ℚ))).toNat)

/-- Per-tile pipeline: histogram, clip-and-redistribute, mapping builder. -/
def tileMapping (p : Plane) (gx gy L : Nat) (f : ℚ) (tx ty : Nat) : List Nat :=
  let pxs := tilePixels p gx gy tx ty
  mappingOf (clipAndRedistribute (histogram L pxs) f pxs.length) pxs.length L

/-- Per-tile pipeline without the clip step: unclipped adaptive histogram
equalization mapping. -/
def tileMappingRaw (p : Plane) (gx gy L : Nat) (tx ty : Nat) : List Nat :=
  let pxs := tilePixels p gx gy tx ty
  mappingOf (histogram L pxs) pxs.length L

/-- Modelled from the spec: the geometric center of tile `t` along one
axis, in pixel coordinates. -/
def tileCenter (extent grid t : Nat) : ℚ :=
  ((tileLo extent grid t : ℚ) + (tileHi extent grid t : ℚ) - 1) / 2

/-- Modelled from the spec: the bracketing step of section 4.5: the up-to
two tile indices along one axis whose centers bracket coordinate `x`, and
the normalized distance `d ∈ [0,1]` from the lower center; coordinates
outside the first/last center clamp to that edge tile with `d = 0`. -/
def bracket (grid : Nat) (cen : Nat → ℚ) (x : ℚ) : Nat × Nat × ℚ :=
  let k := ((List.range grid).filter (fun t => decide (cen t ≤ x))).length
  if k = 0 then (0, 0, 0)
  else if k = grid then (grid - 1, grid - 1, 0)
  else
    let c0 := cen (k - 1)
    let c1 := cen k
    let d := if c1 ≤ c0 then (0 : ℚ) else (x - c0) / (c1 - c0)
    (k - 1, k, max 0 (min 1 d))

/-- Modelled from the spec: one pixel of the bilinear interpolator
(section 4.5): look up the pixel's intensity in the four bracketing tiles'
mappings, blend with weights `(1-dx)(1-dy), dx(1-dy), (1-dx)dy, dx*dy`,
and round to the nearest integer in `[0, L-1]`. -/
def interpPixel (W H gx gy L : Nat) (maps : Nat → Nat → List Nat)
    (x y v : Nat) : Nat :=
  let bx := bracket gx (tileCenter W gx) (x : ℚ)
  let by' := bracket gy (tileCenter H gy) (y : ℚ)
  let dx := bx.2.2
  let dy := by'.2.2
  let m00 := ((maps bx.1 by'.1).getD v 0 : ℚ)
  let m10 := ((maps bx.2.1 by'.1).getD v 0 : ℚ)
  let m01 := ((maps bx.1 by'.2.1).getD v 0 : ℚ)
  let m11 := ((maps bx.2.1 by'.2.1).getD v 0 : ℚ)
  let q := (1 - dx) * (1 - dy) * m00 + dx * (1 - dy) * m10 +
    (1 - dx) * dy * m01 + dx * dy * m11
  (max 0 (min ((L : ℤ) - 1) (round q))).toNat

/-- The interpolation stage over an arbitrary grid of tile mappings. -/
def interpPlane (p : Plane) (gx gy L : Nat) (maps : Nat → Nat → List Nat) : Plane :=
  { W := p.W, H := p.H,
    data := (List.range p.H).flatMap (fun y => (List.range p.W).map (fun x =>
      interpPixel p.W p.H gx gy L maps x y (p.pix x y))) }

/-- Modelled from the spec: the whole CLAHE transform on a plane:
partition, per-tile histogram/clip/mapping, bilinear interpolation. -/
def clahePlane (p : Plane) (gx gy L : Nat) (f : ℚ) : Plane :=
  interpPlane p gx gy L (tileMapping p gx gy L f)

/-- Modelled from the spec: unclipped adaptive histogram equalization:
the same pipeline with the clip-and-redistribute step removed. -/
def ahePlane (p : Plane) (gx gy L : Nat) : Plane :=
  interpPlane p gx gy L (tileMappingRaw p gx gy L)

/-- Modelled from the spec: the structured error taxonomy of section 7. -/
inductive ClaheError where
  | InvalidConfiguration
  deriving DecidableEq, Repr

/-- Modelled from the spec: the core entry point: validates the
configuration eagerly (non-positive grid dimensions, zero-sized plane,
zero `L`) and fails fast with `InvalidConfiguration`, otherwise runs the
transform. -/
def clahe (p : Plane) (gx gy L : Nat) (f : ℚ) : Except ClaheError Plane :=
  if gx = 0 ∨ gy = 0 ∨ p.W = 0 ∨ p.H = 0 ∨ L = 0 then
    .error .InvalidConfiguration
  else
    .ok (clahePlane p gx gy L f)

/-- Standard global histogram equalization, stated from the spec's words
(section 8): one histogram over the whole plane, `cdf`-based mapping
scaled to `[0, L-1]`, applied pointwise. -/
def globalHistEq (p : Plane) (L : Nat) : Plane :=
  let pxs := p.pixels
  let m := mappingOf (histogram L pxs) pxs.length L
  { W := p.W, H := p.H, data := pxs.map (fun v => m.getD v 0) }

/-! ### Embedding of the repository's own code (`src/CLAHE.py`) -/

/-- A LAB color image as a triple of channel planes, the form `apply_clahe`
works with between `cv2.split` and `cv2.merge` (lines 36-46). -/
structure ColorImage where
  l : Plane
  a : Plane
  b : Plane
  deriving DecidableEq, Repr

/-- Model of `cv2.split(lab)`, line 37: the three channel planes. -/
def splitLab (img : ColorImage) : Plane × Plane × Plane :=
  (img.l, img.a, img.b)

/-- Model of `cv2.merge([l, a, b])`, line 46: reassemble the channels. -/
def mergeLab (l a b : Plane) : ColorImage :=
  ⟨l, a, b⟩

/-- Lines 36-46 of `apply_clahe`: split LAB, run CLAHE on the luminance
channel only, merge the channels back. -/
def applyClaheCore (lab : ColorImage) (f : ℚ) (gx gy L : Nat) : ColorImage :=
  mergeLab (clahePlane (splitLab lab).1 gx gy L f)
    (splitLab lab).2.1 (splitLab lab).2.2

/-- Embedding of `apply_clahe` (lines 13-51): decode the image at the path (the
`cv2.imread` collaborator is the `read` parameter); on decode failure
return the pair `(None, None)`, otherwise return the original image and
the CLAHE-processed image. -/
def apply_clahe (read : String → Option ColorImage) (path : String)
    (f : ℚ) (gx gy L : Nat) : Option ColorImage × Option ColorImage :=
  match read path with
  | none => (none, none)
  | some img => (some img, some (applyClaheCore img f gx gy L))

/-- Embedding of `process_all_images` (lines 70-133): run `apply_clahe` on every file;
when either returned component is `None` the file is skipped (`continue`,
line 113): nothing is written for it and `processed_count` is not
incremented.  Returns the final `processed_count` and the list of written
outputs (source path paired with the processed image). -/
def process_all_images (read : String → Option ColorImage) (f : ℚ)
    (gx gy L : Nat) : List String → Nat × List (String × ColorImage)
  | [] => (0, [])
  | path :: rest =>
    match apply_clahe read path f gx gy L with
    | (some _, some processed) =>
      ((process_all_images read f gx gy L rest).1 + 1,
        (path, processed) :: (process_all_images read f gx gy L rest).2)
    | _ => process_all_images read f gx gy L rest

/-- A plane all of whose samples are the same value `V`. -/
def uniformPlane (W H V : Nat) : Plane :=
  ⟨W, H, List.replicate (W * H) V⟩

/-! ### Basic lemmas about the clip-and-redistribute engine -/

lemma length_addUniform (h : List Nat) (e : Nat) :
    (addUniform h e).length = h.length := by
  simp [addUniform]

lemma length_capBins (h : List Nat) (c : Nat) :
    (capBins h c).length = h.length := by
  simp [capBins]

lemma capBins_sum_le (h : List Nat) (c : Nat) : (capBins h c).sum ≤ h.sum := by
  induction h with
  | nil => simp [capBins]
  | cons a t ih =>
    simp only [capBins, List.map_cons, List.sum_cons] at *
    exact Nat.add_le_add (Nat.min_le_left a c) ih

lemma sum_mapIdx_add (l : List Nat) (q r : Nat) :
    (l.mapIdx (fun i b => b + q + if i < r then 1 else 0)).sum
      = l.sum + l.length * q + min r l.length := by
  induction l generalizing r with
  | nil => simp
  | cons a t ih =>
    rw [List.mapIdx_cons]
    have he : (fun i (b : Nat) => b + q + if i + 1 < r then 1 else 0)
        = (fun i (b : Nat) => b + q + if i < r - 1 then 1 else 0) := by
      funext i b
      congr 1
      split_ifs <;> omega
    rw [he, List.sum_cons, ih (r - 1)]
    simp only [List.length_cons, List.sum_cons, Nat.succ_mul]
    split_ifs <;> omega

lemma sum_addUniform (h : List Nat) (e : Nat) (hne : h.length ≠ 0) :
    (addUniform h e).sum = h.sum + e := by
  unfold addUniform
  rw [sum_mapIdx_add]
  have h1 : e % h.length < h.length := Nat.mod_lt _ (Nat.pos_of_ne_zero hne)
  have h2 : min (e % h.length) h.length = e % h.length :=
    Nat.min_eq_left (Nat.le_of_lt h1)
  rw [h2]
  conv_rhs => rw [← Nat.div_add_mod e h.length]
  rw [Nat.add_assoc]

lemma mapIdx_id_fun (l : List Nat) : l.mapIdx (fun _ b => b) = l := by
  induction l with
  | nil => rfl
  | cons a t ih =>
    rw [List.mapIdx_cons]
    exact congrArg (a :: ·) ih

lemma addUniform_zero (h : List Nat) : addUniform h 0 = h := by
  unfold addUniform
  have hfun : (fun i (b : Nat) => b + 0 / h.length + if i < 0 % h.length then 1 else 0)
      = fun _ (b : Nat) => b := by
    funext i b
    simp
  rw [hfun, mapIdx_id_fun]

lemma redistribute_zero (c k : Nat) (h : List Nat) : redistribute c k h 0 = h := by
  cases k with
  | zero => exact addUniform_zero h
  | succ k => simp [redistribute]

lemma sum_redistribute (c : Nat) :
    ∀ (k : Nat) (h : List Nat) (e : Nat), h.length ≠ 0 →
      (redistribute c k h e).sum = h.sum + e := by
  intro k
  induction k with
  | zero => intro h e hne; exact sum_addUniform h e hne
  | succ k ih =>
    intro h e hne
    by_cases he : e = 0
    · subst he
      rw [redistribute_zero, Nat.add_zero]
    · rw [redistribute, if_neg he]
      have hlen : (capBins (addUniform h e) c).length ≠ 0 := by
        rw [length_capBins, length_addUniform]; exact hne
      rw [ih _ _ hlen]
      have hle : (capBins (addUniform h e) c).sum ≤ (addUniform h e).sum :=
        capBins_sum_le _ _
      have hs := sum_addUniform h e hne
      omega

lemma sum_clipAndRedistribute (h : List Nat) (f : ℚ) (n : Nat) :
    (clipAndRedistribute h f n).sum = h.sum := by
  unfold clipAndRedistribute
  by_cases hf : f ≤ 0
  · rw [if_pos hf]
  · rw [if_neg hf]
    by_cases hne : h.length = 0
    · have hnil : h = [] := List.length_eq_zero.mp hne
      subst hnil
      simp [capBins, redistribute_zero]
    · have hlen : (capBins h (Nat.floor (f * n / h.length))).length ≠ 0 := by
        rw [length_capBins]; exact hne
      rw [sum_redistribute _ _ _ _ hlen]
      have hle : (capBins h (Nat.floor (f * n / h.length))).sum ≤ h.sum :=
        capBins_sum_le _ _
      omega

/-! ### Histogram lemmas -/

lemma sum_map_range (f : Nat → Nat) (n : Nat) :
    ((List.range n).map f).sum = ∑ v in Finset.range n, f v := by
  induction n with
  | zero => simp
  | succ n ih =>
    rw [List.range_succ, List.map_append, List.sum_append, Finset.sum_range_succ, ih]
    simp

lemma sum_histogram (L : Nat) (pxs : List Nat) :
    (histogram L pxs).sum = pxs.countP (fun v => decide (v < L)) := by
  unfold histogram
  rw [sum_map_range]
  induction pxs with
  | nil => simp
  | cons a t ih =>
    simp only [List.count_cons, List.countP_cons]
    rw [Finset.sum_add_distrib, ih]
    have hsum : (∑ x in Finset.range L, if a == x then 1 else 0)
        = if decide (a < L) = true then 1 else 0 := by
      simp only [beq_iff_eq]
      rw [Finset.sum_ite_eq (Finset.range L) a (fun _ => 1)]
      simp
    rw [hsum]

lemma sum_histogram_of_lt (L : Nat) (pxs : List Nat)
    (hall : ∀ v ∈ pxs, v < L) : (histogram L pxs).sum = pxs.length := by
  rw [sum_histogram]
  apply List.countP_eq_length.mpr
  intro a ha
  simpa using hall a ha

lemma sum_histogram_le (L : Nat) (pxs : List Nat) :
    (histogram L pxs).sum ≤ pxs.length := by
  rw [sum_histogram]
  exact List.countP_le_length _

/-! ### Mapping-function lemmas -/

lemma length_mappingOf (h : List Nat) (n L : Nat) :
    (mappingOf h n L).length = L := by
  unfold mappingOf
  split <;> simp

lemma mappingOf_getD (h : List Nat) (n L i : Nat) (hn : n ≠ 0) (hi : i < L) :
    (mappingOf h n L).getD i 0
      = (round ((cdfAt h i : ℚ) * ((L : ℚ) - 1) / (n : ℚ))).toNat := by
  unfold mappingOf
  rw [if_neg hn, List.getD_eq_getElem?_getD, List.getElem?_map]
  simp [List.getElem?_range, hi]

lemma round_le_round_of_le {x y : ℚ} (h : x ≤ y) : round x ≤ round y := by
  rw [round_eq, round_eq]
  exact Int.floor_le_floor (by linarith)

lemma sum_take_le (l : List Nat) (k : Nat) : (l.take k).sum ≤ l.sum := by
  conv_rhs => rw [← List.take_append_drop k l]
  rw [List.sum_append]
  exact Nat.le_add_right _ _

lemma cdfAt_mono (h : List Nat) {i j : Nat} (hij : i ≤ j) :
    cdfAt h i ≤ cdfAt h j := by
  unfold cdfAt
  have ht : h.take (i + 1) = (h.take (j + 1)).take (i + 1) := by
    rw [List.take_take]
    congr 1
    omega
  rw [ht]
  exact sum_take_le _ _

lemma cdfAt_le_sum (h : List Nat) (i : Nat) : cdfAt h i ≤ h.sum :=
  sum_take_le h (i + 1)

lemma mappingOf_mono (h : List Nat) (n L : Nat) (hn : 0 < n) {i j : Nat}
    (hij : i ≤ j) (hj : j < L) :
    (mappingOf h n L).getD i 0 ≤ (mappingOf h n L).getD j 0 := by
  rw [mappingOf_getD h n L i (by omega) (lt_of_le_of_lt hij hj),
    mappingOf_getD h n L j (by omega) hj]
  apply Int.toNat_le_toNat
  apply round_le_round_of_le
  have hL1 : (0 : ℚ) ≤ (L : ℚ) - 1 := by
    have : 1 ≤ L := by omega
    have : (1 : ℚ) ≤ (L : ℚ) := by exact_mod_cast this
    linarith
  have hcdf : (cdfAt h i : ℚ) ≤ (cdfAt h j : ℚ) := by
    exact_mod_cast cdfAt_mono h hij
  have hnq : (0 : ℚ) < (n : ℚ) := by exact_mod_cast hn
  exact (div_le_div_iff_of_pos_right hnq).mpr (mul_le_mul_of_nonneg_right hcdf hL1)

lemma mappingOf_getD_le_int (h : List Nat) (n L v : Nat) (hn : 0 < n)
    (hL : 1 ≤ L) (hsum : h.sum ≤ n) :
    ((mappingOf h n L).getD v 0 : ℤ) ≤ (L : ℤ) - 1 := by
  by_cases hv : v < L
  · rw [mappingOf_getD h n L v (by omega) hv]
    have hnq : (0 : ℚ) < (n : ℚ) := by exact_mod_cast hn
    have hL1 : (0 : ℚ) ≤ (L : ℚ) - 1 := by
      have : (1 : ℚ) ≤ (L : ℚ) := by exact_mod_cast hL
      linarith
    have hcdf : (cdfAt h v : ℚ) ≤ (n : ℚ) := by
      exact_mod_cast le_trans (cdfAt_le_sum h v) hsum
    have harg : (cdfAt h v : ℚ) * ((L : ℚ) - 1) / (n : ℚ) ≤ (L : ℚ) - 1 := by
      rw [div_le_iff₀ hnq]
      nlinarith
    have hround : round ((cdfAt h v : ℚ) * ((L : ℚ) - 1) / (n : ℚ))
        ≤ (L : ℤ) - 1 := by
      have h2 := round_le_round_of_le harg
      have h3 : round ((L : ℚ) - 1) = (L : ℤ) - 1 := by
        have : ((L : ℚ) - 1) = (((L : ℤ) - 1 : ℤ) : ℚ) := by push_cast; ring
        rw [this, round_intCast]
      omega
    rw [Int.toNat_eq_max]
    have hmax : max (round ((cdfAt h v : ℚ) * ((L : ℚ) - 1) / (n : ℚ))) 0
        ≤ (L : ℤ) - 1 := by
      apply max_le hround
      omega
    exact hmax
  · have hd : (mappingOf h n L).getD v 0 = 0 := by
      apply List.getD_eq_default
      rw [length_mappingOf]
      omega
    rw [hd]
    simp
    omega

/-! ### Claim theorems -/

/-- C2: for every tile, the clip-and-redistribute step preserves total
mass: the clipped histogram's total equals the raw histogram's total,
which equals the tile's pixel count. -/
theorem C2_clip_conserves_mass (p : Plane) (gx gy tx ty L : Nat) (f : ℚ)
    (hval : ∀ v ∈ tilePixels p gx gy tx ty, v < L) :
    (clipAndRedistribute (histogram L (tilePixels p gx gy tx ty)) f
        (tilePixels p gx gy tx ty).length).sum
      = (histogram L (tilePixels p gx gy tx ty)).sum ∧
    (histogram L (tilePixels p gx gy tx ty)).sum
      = (tilePixels p gx gy tx ty).length :=
  ⟨sum_clipAndRedistribute _ _ _, sum_histogram_of_lt _ _ hval⟩

/-- Witness for C2 at a concrete tile: a 4x2 plane, 2x1 grid, tile (0,0),
L = 4, clip factor 2. -/
theorem C2_clip_conserves_mass_witness :
    (∀ v ∈ tilePixels ⟨4, 2, [0, 1, 2, 3, 3, 2, 1, 0]⟩ 2 1 0 0, v < 4) ∧
    (clipAndRedistribute
        (histogram 4 (tilePixels ⟨4, 2, [0, 1, 2, 3, 3, 2, 1, 0]⟩ 2 1 0 0))
        2 (tilePixels ⟨4, 2, [0, 1, 2, 3, 3, 2, 1, 0]⟩ 2 1 0 0).length).sum
      = (histogram 4 (tilePixels ⟨4, 2, [0, 1, 2, 3, 3, 2, 1, 0]⟩ 2 1 0 0)).sum ∧
    (histogram 4 (tilePixels ⟨4, 2, [0, 1, 2, 3, 3, 2, 1, 0]⟩ 2 1 0 0)).sum
      = (tilePixels ⟨4, 2, [0, 1, 2, 3, 3, 2, 1, 0]⟩ 2 1 0 0).length :=
  ⟨by decide, C2_clip_conserves_mass ⟨4, 2, [0, 1, 2, 3, 3, 2, 1, 0]⟩ 2 1 0 0 4 2
    (by decide)⟩

/-- C4: the mapping function is `round(cdf[i] * (L-1) / n)` for a tile of
pixel count `n > 0`, is monotonically non-decreasing, and is the identity
mapping when `n = 0` (degenerate tile), with no failure surfaced. -/
theorem C4_mapping_function (h : List Nat) (n L : Nat) :
    (mappingOf h 0 L = List.range L ∧ ∀ i, i < L → (mappingOf h 0 L).getD i 0 = i) ∧
    (0 < n →
      (∀ i, i < L → (mappingOf h n L).getD i 0
        = (round ((cdfAt h i : ℚ) * ((L : ℚ) - 1) / (n : ℚ))).toNat) ∧
      ∀ i j, i ≤ j → j < L →
        (mappingOf h n L).getD i 0 ≤ (mappingOf h n L).getD j 0) := by
  refine ⟨⟨by unfold mappingOf; rw [if_pos rfl], ?_⟩, fun hn => ⟨?_, ?_⟩⟩
  · intro i hi
    unfold mappingOf
    rw [if_pos rfl, List.getD_eq_getElem?_getD]
    simp [List.getElem?_range, hi]
  · exact fun i hi => mappingOf_getD h n L i (by omega) hi
  · exact fun i j hij hj => mappingOf_mono h n L hn hij hj

/-- Witness for C4 at a concrete histogram: `[1, 2, 3, 0]`, `n = 6`,
`L = 4`. -/
theorem C4_mapping_function_witness :
    (0 : Nat) < 6 ∧
    (mappingOf [1, 2, 3, 0] 6 4).getD 1 0
      = (round ((cdfAt [1, 2, 3, 0] 1 : ℚ) * ((4 : ℚ) - 1) / (6 : ℚ))).toNat ∧
    (mappingOf [1, 2, 3, 0] 6 4).getD 1 0 ≤ (mappingOf [1, 2, 3, 0] 6 4).getD 2 0 :=
  ⟨by decide,
    (C4_mapping_function [1, 2, 3, 0] 6 4).2 (by decide) |>.1 1 (by decide),
    (C4_mapping_function [1, 2, 3, 0] 6 4).2 (by decide) |>.2 1 2 (by decide)
      (by decide)⟩

/-- C6: non-positive grid dimensions, a zero-sized plane, or `L = 0` make
the transform fail with the structured `InvalidConfiguration` error. -/
theorem C6_invalid_configuration (p : Plane) (gx gy L : Nat) (f : ℚ)
    (h : gx = 0 ∨ gy = 0 ∨ p.W = 0 ∨ p.H = 0 ∨ L = 0) :
    clahe p gx gy L f = Except.error ClaheError.InvalidConfiguration := by
  unfold clahe
  rw [if_pos h]

/-- Witness for C6: the spec's concrete scenario, grid spec `(0, 4)`. -/
theorem C6_invalid_configuration_witness :
    ((0 : Nat) = 0 ∨ (4 : Nat) = 0 ∨ (Plane.mk 2 2 [0, 1, 2, 3]).W = 0 ∨
      (Plane.mk 2 2 [0, 1, 2, 3]).H = 0 ∨ (256 : Nat) = 0) ∧
    clahe ⟨2, 2, [0, 1, 2, 3]⟩ 0 4 256 2
      = Except.error ClaheError.InvalidConfiguration :=
  ⟨Or.inl rfl, C6_invalid_configuration ⟨2, 2, [0, 1, 2, 3]⟩ 0 4 256 2 (Or.inl rfl)⟩

/-- C7: with clip factor `≤ 0` the clip-and-redistribute step is a no-op
(the clipped histogram is the raw histogram) and the whole transform
equals unclipped adaptive histogram equalization. -/
theorem C7_nonpositive_clip_factor (p : Plane) (gx gy L n : Nat)
    (h : List Nat) (f : ℚ) (hf : f ≤ 0) :
    clipAndRedistribute h f n = h ∧
    clahePlane p gx gy L f = ahePlane p gx gy L := by
  have hno : ∀ (h2 : List Nat) (n2 : Nat), clipAndRedistribute h2 f n2 = h2 := by
    intro h2 n2
    unfold clipAndRedistribute
    rw [if_pos hf]
  refine ⟨hno h n, ?_⟩
  unfold clahePlane ahePlane
  congr 1
  funext tx ty
  unfold tileMapping tileMappingRaw
  simp only []
  rw [hno]

/-- Witness for C7 at clip factor `-1` on a concrete 4x2 plane. -/
theorem C7_nonpositive_clip_factor_witness :
    ((-1 : ℚ) ≤ 0) ∧
    clipAndRedistribute [0, 2, 2, 4] (-1) 8 = [0, 2, 2, 4] ∧
    clahePlane ⟨4, 2, [0, 1, 2, 3, 3, 2, 1, 0]⟩ 2 1 4 (-1)
      = ahePlane ⟨4, 2, [0, 1, 2, 3, 3, 2, 1, 0]⟩ 2 1 4 :=
  ⟨by norm_num,
    C7_nonpositive_clip_factor ⟨4, 2, [0, 1, 2, 3, 3, 2, 1, 0]⟩ 2 1 4 8
      [0, 2, 2, 4] (-1) (by norm_num)⟩

/-- C9: `apply_clahe` carries the non-intensity LAB channels unchanged
from the split to the merge: only the luminance channel is replaced by
the CLAHE result, and the `a` and `b` channels of the merged image equal
those of the input LAB image. -/
theorem C9_color_channels_preserved (lab : ColorImage) (f : ℚ) (gx gy L : Nat) :
    (applyClaheCore lab f gx gy L).a = lab.a ∧
    (applyClaheCore lab f gx gy L).b = lab.b ∧
    (applyClaheCore lab f gx gy L).l = clahePlane lab.l gx gy L f :=
  ⟨rfl, rfl, rfl⟩

/-- C10: when the image at a path cannot be decoded, `apply_clahe`
returns `(None, None)` instead of raising, and `process_all_images`
skips that file: it writes no output for it, does not increment
`processed_count`, and continues with the remaining files (the run is
identical to the run without that file). -/
theorem C10_decode_failure_skipped (read : String → Option ColorImage)
    (path : String) (f : ℚ) (gx gy L : Nat) (pre post : List String)
    (hfail : read path = none) :
    apply_clahe read path f gx gy L = (none, none) ∧
    process_all_images read f gx gy L (pre ++ path :: post)
      = process_all_images read f gx gy L (pre ++ post) := by
  have happ : apply_clahe read path f gx gy L = (none, none) := by
    unfold apply_clahe
    rw [hfail]
  refine ⟨happ, ?_⟩
  induction pre with
  | nil =>
    simp only [List.nil_append]
    rw [process_all_images, happ]
  | cons q rest ih =>
    simp only [List.cons_append]
    rw [process_all_images, process_all_images, ih]

/-- Witness for C10: a reader that decodes nothing, one failing file
between two others. -/
theorem C10_decode_failure_skipped_witness :
    ((fun _ : String => (none : Option ColorImage)) "bad.jpg" = none) ∧
    apply_clahe (fun _ => none) "bad.jpg" 2 8 8 256 = (none, none) ∧
    process_all_images (fun _ => none) 2 8 8 256 (["a.jpg"] ++ "bad.jpg" :: ["c.jpg"])
      = process_all_images (fun _ => none) 2 8 8 256 (["a.jpg"] ++ ["c.jpg"]) :=
  ⟨rfl, C10_decode_failure_skipped (fun _ => none) "bad.jpg" 2 8 8 256
    ["a.jpg"] ["c.jpg"] rfl⟩

/-! ### Output-range lemmas for the interpolator -/

lemma interpPixel_lt (W H gx gy L : Nat) (maps : Nat → Nat → List Nat)
    (x y v : Nat) (hL : 1 ≤ L) : interpPixel W H gx gy L maps x y v < L := by
  simp only [interpPixel]
  omega

lemma length_interp_data (p : Plane) (gx gy L : Nat)
    (maps : Nat → Nat → List Nat) :
    (interpPlane p gx gy L maps).data.length = p.W * p.H := by
  simp only [interpPlane, List.length_flatMap, List.map_map, Function.comp_def]
  have hconst : ((List.range p.H).map
      (fun y => ((List.range p.W).map (fun x =>
        interpPixel p.W p.H gx gy L maps x y (p.pix x y))).length))
      = (List.range p.H).map (fun _ => p.W) := by
    apply List.map_congr_left
    intro y _
    simp
  rw [hconst, sum_map_range]
  simp [Nat.mul_comm]

lemma mem_interp_data (p : Plane) (gx gy L : Nat)
    (maps : Nat → Nat → List Nat) (v : Nat)
    (hv : v ∈ (interpPlane p gx gy L maps).data) :
    ∃ x y, x < p.W ∧ y < p.H ∧
      v = interpPixel p.W p.H gx gy L maps x y (p.pix x y) := by
  simp only [interpPlane, List.mem_flatMap, List.mem_map, List.mem_range] at hv
  obtain ⟨y, hy, x, hx, rfl⟩ := hv
  exact ⟨x, y, hx, hy, rfl⟩

/-- C1: for every valid input plane, grid spec and clip factor, the
transform produces an output plane of identical dimensions in which every
output pixel value lies in `[0, L-1]`. -/
theorem C1_output_range (p : Plane) (gx gy L : Nat) (f : ℚ) (out : Plane)
    (hW : 1 ≤ p.W) (hH : 1 ≤ p.H) (hL : 1 ≤ L)
    (hval : ∀ v ∈ p.data, v < L)
    (hok : clahe p gx gy L f = Except.ok out) :
    out.W = p.W ∧ out.H = p.H ∧ out.data.length = p.W * p.H ∧
      ∀ v ∈ out.data, v < L := by
  unfold clahe at hok
  by_cases hc : gx = 0 ∨ gy = 0 ∨ p.W = 0 ∨ p.H = 0 ∨ L = 0
  · rw [if_pos hc] at hok
    cases hok
  · rw [if_neg hc] at hok
    injection hok with hok
    subst hok
    refine ⟨rfl, rfl, length_interp_data p gx gy L _, ?_⟩
    intro v hv
    obtain ⟨x, y, _, _, rfl⟩ := mem_interp_data p gx gy L _ v hv
    exact interpPixel_lt p.W p.H gx gy L _ x y _ hL

/-- Witness for C1: a concrete 2x2 plane, 2x2 grid, L = 4, clip factor 2. -/
theorem C1_output_range_witness :
    (1 ≤ (Plane.mk 2 2 [0, 1, 2, 3]).W ∧ 1 ≤ (Plane.mk 2 2 [0, 1, 2, 3]).H ∧
      (1 : Nat) ≤ 4 ∧ ∀ v ∈ (Plane.mk 2 2 [0, 1, 2, 3]).data, v < 4) ∧
    ((clahePlane ⟨2, 2, [0, 1, 2, 3]⟩ 2 2 4 2).W = (Plane.mk 2 2 [0, 1, 2, 3]).W ∧
      (clahePlane ⟨2, 2, [0, 1, 2, 3]⟩ 2 2 4 2).H = (Plane.mk 2 2 [0, 1, 2, 3]).H ∧
      (clahePlane ⟨2, 2, [0, 1, 2, 3]⟩ 2 2 4 2).data.length
        = (Plane.mk 2 2 [0, 1, 2, 3]).W * (Plane.mk 2 2 [0, 1, 2, 3]).H ∧
      ∀ v ∈ (clahePlane ⟨2, 2, [0, 1, 2, 3]⟩ 2 2 4 2).data, v < 4) :=
  ⟨⟨by decide, by decide, by decide, by decide⟩,
    C1_output_range ⟨2, 2, [0, 1, 2, 3]⟩ 2 2 4 2
      (clahePlane ⟨2, 2, [0, 1, 2, 3]⟩ 2 2 4 2)
      (by decide) (by decide) (by decide) (by decide) rfl⟩

/-! ### Tile-partitioner lemmas -/

lemma tileSize_pos (W gx : Nat) (hW : 1 ≤ W) (hgx : 1 ≤ gx) :
    1 ≤ tileSize W gx := by
  unfold tileSize
  rw [Nat.le_div_iff_mul_le (by omega)]
  omega

lemma extent_le_grid_mul_tileSize (W gx : Nat) (hW : 1 ≤ W) (hgx : 1 ≤ gx) :
    W ≤ gx * tileSize W gx := by
  unfold tileSize
  have h := Nat.div_add_mod (W + gx - 1) gx
  have h2 : (W + gx - 1) % gx < gx := Nat.mod_lt _ (by omega)
  omega

lemma lt_div_succ_mul (a b : Nat) (hb : 0 < b) : a < (a / b + 1) * b := by
  have h := Nat.div_add_mod a b
  have h2 : a % b < b := Nat.mod_lt _ hb
  calc a = b * (a / b) + a % b := h.symm
    _ < b * (a / b) + b := by omega
    _ = (a / b + 1) * b := by ring

lemma cover_1d (W gx : Nat) (hW : 1 ≤ W) (hgx : 1 ≤ gx) (x : Nat) (hx : x < W) :
    ∃! t, t < gx ∧ inTile W gx t x := by
  have hts : 1 ≤ tileSize W gx := tileSize_pos W gx hW hgx
  have hcov : W ≤ gx * tileSize W gx := extent_le_grid_mul_tileSize W gx hW hgx
  refine ⟨x / tileSize W gx, ⟨?_, ?_, ?_⟩, ?_⟩
  · rw [Nat.div_lt_iff_lt_mul (by omega)]
    calc x < W := hx
      _ ≤ gx * tileSize W gx := hcov
      _ = gx * tileSize W gx := rfl
  · show tileLo W gx (x / tileSize W gx) ≤ x
    unfold tileLo
    exact Nat.div_mul_le_self x _
  · show x < tileHi W gx (x / tileSize W gx)
    unfold tileHi
    exact Nat.lt_min.mpr ⟨lt_div_succ_mul x _ (by omega), hx⟩
  · rintro t ⟨ht, hlo, hhi⟩
    unfold tileLo at hlo
    unfold tileHi at hhi
    have hhi2 : x < (t + 1) * tileSize W gx := lt_of_lt_of_le hhi (Nat.min_le_left _ _)
    exact (Nat.div_eq_of_lt_le hlo hhi2).symm

/-- C5: with `W, H ≥ 1` and `tilesX, tilesY ≥ 1`, every tile is at most
`ceil(W/tilesX)` wide and `ceil(H/tilesY)` tall, non-edge tiles are
exactly that size, and every pixel belongs to exactly one tile (full
cover, no gaps, no overlaps). -/
theorem C5_tile_partition (W H gx gy : Nat) (hW : 1 ≤ W) (hH : 1 ≤ H)
    (hgx : 1 ≤ gx) (hgy : 1 ≤ gy) :
    (∀ x y, x < W → y < H → ∃! t : Nat × Nat,
      t.1 < gx ∧ t.2 < gy ∧ inTile W gx t.1 x ∧ inTile H gy t.2 y) ∧
    (∀ tx, tileHi W gx tx - tileLo W gx tx ≤ tileSize W gx) ∧
    (∀ tx, (tx + 1) * tileSize W gx ≤ W →
      tileHi W gx tx - tileLo W gx tx = tileSize W gx) ∧
    (∀ ty, tileHi H gy ty - tileLo H gy ty ≤ tileSize H gy) ∧
    (∀ ty, (ty + 1) * tileSize H gy ≤ H →
      tileHi H gy ty - tileLo H gy ty = tileSize H gy) := by
  refine ⟨?_, ?_, ?_, ?_, ?_⟩
  · intro x y hx hy
    obtain ⟨tx, htx, hux⟩ := cover_1d W gx hW hgx x hx
    obtain ⟨ty, hty, huy⟩ := cover_1d H gy hH hgy y hy
    refine ⟨(tx, ty), ⟨htx.1, hty.1, htx.2, hty.2⟩, ?_⟩
    rintro ⟨tx2, ty2⟩ ⟨h1, h2, h3, h4⟩
    have ex := hux tx2 ⟨h1, h3⟩
    have ey := huy ty2 ⟨h2, h4⟩
    simp only [Prod.mk.injEq]
    exact ⟨ex, ey⟩
  · intro tx
    unfold tileHi tileLo
    rw [Nat.succ_mul]
    omega
  · intro tx hle
    unfold tileHi tileLo
    rw [Nat.min_eq_left hle, Nat.succ_mul]
    omega
  · intro ty
    unfold tileHi tileLo
    rw [Nat.succ_mul]
    omega
  · intro ty hle
    unfold tileHi tileLo
    rw [Nat.min_eq_left hle, Nat.succ_mul]
    omega

/-- Witness for C5 at `W = 5`, `H = 3`, grid `2 x 2`. -/
theorem C5_tile_partition_witness :
    ((1 : Nat) ≤ 5 ∧ (1 : Nat) ≤ 3 ∧ (1 : Nat) ≤ 2) ∧
    ((∀ x y, x < 5 → y < 3 → ∃! t : Nat × Nat,
      t.1 < 2 ∧ t.2 < 2 ∧ inTile 5 2 t.1 x ∧ inTile 3 2 t.2 y) ∧
    (∀ tx, tileHi 5 2 tx - tileLo 5 2 tx ≤ tileSize 5 2) ∧
    (∀ tx, (tx + 1) * tileSize 5 2 ≤ 5 →
      tileHi 5 2 tx - tileLo 5 2 tx = tileSize 5 2) ∧
    (∀ ty, tileHi 3 2 ty - tileLo 3 2 ty ≤ tileSize 3 2) ∧
    (∀ ty, (ty + 1) * tileSize 3 2 ≤ 3 →
      tileHi 3 2 ty - tileLo 3 2 ty = tileSize 3 2)) :=
  ⟨⟨by decide, by decide, by decide⟩,
    C5_tile_partition 5 3 2 2 (by decide) (by decide) (by decide) (by decide)⟩

/-! ### Lemmas for the 1x1-grid / global-equalization equivalence -/

lemma bracket_one (cen : Nat → ℚ) (x : ℚ) : bracket 1 cen x = (0, 0, 0) := by
  unfold bracket
  have h1 : List.range 1 = [0] := rfl
  by_cases hc : cen 0 ≤ x
  · simp [h1, hc]
  · simp [h1, hc]

lemma tilePixels_one (p : Plane) : tilePixels p 1 1 0 0 = p.pixels := by
  unfold tilePixels Plane.pixels tileLo tileHi tileSize
  simp

lemma length_flatMap_range (H W : Nat) (f : Nat → Nat → Nat) :
    ((List.range H).flatMap (fun y =>
      (List.range W).map (fun x => f x y))).length = W * H := by
  simp only [List.length_flatMap, List.map_map, Function.comp_def]
  have hconst : (List.range H).map
      (fun y => ((List.range W).map (fun x => f x y)).length)
      = (List.range H).map (fun _ => W) := by
    apply List.map_congr_left
    intro y _
    simp
  rw [hconst, sum_map_range]
  simp [Nat.mul_comm]

lemma length_pixels (p : Plane) : p.pixels.length = p.W * p.H := by
  unfold Plane.pixels
  exact length_flatMap_range p.H p.W (fun x y => p.pix x y)

lemma histogram_bin_le (L : Nat) (pxs : List Nat) (b : Nat)
    (hb : b ∈ histogram L pxs) : b ≤ pxs.length := by
  unfold histogram at hb
  obtain ⟨v, _, rfl⟩ := List.mem_map.mp hb
  exact List.count_le_length v pxs

lemma clipAndRedistribute_noop (h : List Nat) (f : ℚ) (n : Nat)
    (hpos : 0 < f) (hbins : ∀ b ∈ h, (b : ℚ) ≤ f * n / h.length) :
    clipAndRedistribute h f n = h := by
  unfold clipAndRedistribute
  rw [if_neg (not_le.mpr hpos)]
  have hcap : capBins h (Nat.floor (f * (n : ℚ) / (h.length : ℚ))) = h := by
    unfold capBins
    have hmin : ∀ b ∈ h, min b (Nat.floor (f * (n : ℚ) / (h.length : ℚ))) = b :=
      fun b hb => Nat.min_eq_left (Nat.le_floor (hbins b hb))
    rw [List.map_congr_left hmin]
    simp
  simp only []
  rw [hcap, Nat.sub_self, redistribute_zero]

lemma interpPixel_single (W H L : Nat) (maps : Nat → Nat → List Nat)
    (x y v : Nat) (hbound : ((maps 0 0).getD v 0 : ℤ) ≤ (L : ℤ) - 1) :
    interpPixel W H 1 1 L maps x y v = (maps 0 0).getD v 0 := by
  simp only [interpPixel, bracket_one]
  norm_num
  rw [List.getD_eq_getElem?_getD] at hbound
  omega

/-- C3: with a 1x1 tile grid and an effectively unbounded clip factor
(`f ≥ L`, which puts the clip limit at or above every bin, disabling
clipping), the transform equals standard global histogram equalization. -/
theorem C3_global_equalization (p : Plane) (L : Nat) (f : ℚ)
    (hW : 1 ≤ p.W) (hH : 1 ≤ p.H) (hL : 1 ≤ L) (hf : (L : ℚ) ≤ f) :
    clahe p 1 1 L f = Except.ok (globalHistEq p L) := by
  have hLq : (0 : ℚ) < (L : ℚ) := by
    have : (1 : ℚ) ≤ (L : ℚ) := by exact_mod_cast hL
    linarith
  have hfpos : (0 : ℚ) < f := lt_of_lt_of_le hLq hf
  unfold clahe
  rw [if_neg (by push_neg; exact ⟨one_ne_zero, one_ne_zero, by omega, by omega, by omega⟩)]
  congr 1
  have hpx : tilePixels p 1 1 0 0 = p.pixels := tilePixels_one p
  have hlenh : (histogram L p.pixels).length = L := by simp [histogram]
  have hclip : clipAndRedistribute (histogram L p.pixels) f p.pixels.length
      = histogram L p.pixels := by
    apply clipAndRedistribute_noop _ _ _ hfpos
    intro b hb
    rw [hlenh]
    have hb1 : (b : ℚ) ≤ (p.pixels.length : ℚ) := by
      exact_mod_cast histogram_bin_le L p.pixels b hb
    have hdiv : (1 : ℚ) ≤ f / (L : ℚ) := (one_le_div hLq).mpr hf
    calc (b : ℚ) ≤ (p.pixels.length : ℚ) := hb1
      _ = 1 * (p.pixels.length : ℚ) := by ring
      _ ≤ (f / (L : ℚ)) * (p.pixels.length : ℚ) :=
          mul_le_mul_of_nonneg_right hdiv (by positivity)
      _ = f * (p.pixels.length : ℚ) / (L : ℚ) := by ring
  have hmap : tileMapping p 1 1 L f 0 0
      = mappingOf (histogram L p.pixels) p.pixels.length L := by
    unfold tileMapping
    simp only []
    rw [hpx, hclip]
  have hnpos : 0 < p.pixels.length := by
    rw [length_pixels]
    exact Nat.mul_pos (by omega) (by omega)
  have hbound : ∀ v,
      ((mappingOf (histogram L p.pixels) p.pixels.length L).getD v 0 : ℤ)
        ≤ (L : ℤ) - 1 :=
    fun v => mappingOf_getD_le_int _ _ _ v hnpos hL (sum_histogram_le L p.pixels)
  have hpix : ∀ x y,
      interpPixel p.W p.H 1 1 L (tileMapping p 1 1 L f) x y (p.pix x y)
        = (mappingOf (histogram L p.pixels) p.pixels.length L).getD (p.pix x y) 0 := by
    intro x y
    rw [interpPixel_single p.W p.H L _ x y _ (by rw [hmap]; exact hbound _), hmap]
  unfold clahePlane interpPlane globalHistEq
  simp only []
  congr 1
  unfold Plane.pixels
  rw [List.map_flatMap]
  apply List.flatMap_congr
  intro y _
  rw [List.map_map]
  apply List.map_congr_left
  intro x _
  simp only [Function.comp_def]
  exact hpix x y

/-- Witness for C3: a concrete 4x2 plane, L = 4, clip factor 4. -/
theorem C3_global_equalization_witness :
    (1 ≤ (Plane.mk 4 2 [0, 1, 2, 3, 3, 2, 1, 0]).W ∧
      1 ≤ (Plane.mk 4 2 [0, 1, 2, 3, 3, 2, 1, 0]).H ∧
      (1 : Nat) ≤ 4 ∧ ((4 : Nat) : ℚ) ≤ 4) ∧
    clahe ⟨4, 2, [0, 1, 2, 3, 3, 2, 1, 0]⟩ 1 1 4 4
      = Except.ok (globalHistEq ⟨4, 2, [0, 1, 2, 3, 3, 2, 1, 0]⟩ 4) :=
  ⟨⟨by decide, by decide, by decide, by norm_num⟩,
    C3_global_equalization ⟨4, 2, [0, 1, 2, 3, 3, 2, 1, 0]⟩ 4 4
      (by decide) (by decide) (by decide) (by norm_num)⟩

/-! ### Uniform-plane lemmas -/

lemma pix_uniform (W H V x y : Nat) (hx : x < W) (hy : y < H) :
    (uniformPlane W H V).pix x y = V := by
  unfold uniformPlane Plane.pix
  simp only []
  have hidx : y * W + x < W * H := by
    calc y * W + x < y * W + W := by omega
      _ = (y + 1) * W := by ring
      _ ≤ H * W := Nat.mul_le_mul_right W (by omega)
      _ = W * H := Nat.mul_comm H W
  rw [List.getD_eq_getElem?_getD, List.getElem?_replicate]
  simp [hidx]

lemma bracket_lt (grid : Nat) (hg : 1 ≤ grid) (cen : Nat → ℚ) (x : ℚ) :
    (bracket grid cen x).1 < grid ∧ (bracket grid cen x).2.1 < grid := by
  unfold bracket
  simp only []
  have hkle : ((List.range grid).filter (fun t => decide (cen t ≤ x))).length ≤ grid := by
    calc ((List.range grid).filter (fun t => decide (cen t ≤ x))).length
        ≤ (List.range grid).length := List.length_filter_le _ _
      _ = grid := List.length_range grid
  by_cases h0 : ((List.range grid).filter (fun t => decide (cen t ≤ x))).length = 0
  · rw [if_pos h0]
    exact ⟨hg, hg⟩
  · rw [if_neg h0]
    by_cases hgr : ((List.range grid).filter (fun t => decide (cen t ≤ x))).length = grid
    · rw [if_pos hgr]
      dsimp only
      omega
    · rw [if_neg hgr]
      dsimp only
      omega

lemma blend_const (dx dy m : ℚ) :
    (1 - dx) * (1 - dy) * m + dx * (1 - dy) * m +
      (1 - dx) * dy * m + dx * dy * m = m := by
  ring

lemma interpPixel_const_maps (W H gx gy L : Nat) (hgx : 1 ≤ gx) (hgy : 1 ≤ gy)
    (maps : Nat → Nat → List Nat) (M : List Nat)
    (hM : ∀ tx ty, tx < gx → ty < gy → maps tx ty = M) (x y v : Nat) :
    interpPixel W H gx gy L maps x y v
      = (max 0 (min ((L : ℤ) - 1) ((M.getD v 0 : ℤ)))).toNat := by
  obtain ⟨hx1, hx2⟩ := bracket_lt gx hgx (tileCenter W gx) (x : ℚ)
  obtain ⟨hy1, hy2⟩ := bracket_lt gy hgy (tileCenter H gy) (y : ℚ)
  simp only [interpPixel]
  rw [hM _ _ hx1 hy1, hM _ _ hx2 hy1, hM _ _ hx1 hy2, hM _ _ hx2 hy2,
    blend_const, round_natCast]

lemma tileWidth_of_dvd (W gx tx m : Nat) (hgx : 1 ≤ gx) (hm : W = gx * m)
    (htx : tx < gx) : tileHi W gx tx - tileLo W gx tx = m := by
  have hts : tileSize W gx = m := by
    unfold tileSize
    subst hm
    have h1 : gx * m + gx - 1 = gx * m + (gx - 1) := by omega
    rw [h1, Nat.mul_add_div (by omega), Nat.div_eq_of_lt (by omega)]
    omega
  unfold tileHi tileLo
  rw [hts]
  have h1 : (tx + 1) * m ≤ W := by
    rw [hm, Nat.mul_comm gx m, Nat.mul_comm (tx + 1) m]
    have htx1 : tx + 1 ≤ gx := by omega
    exact Nat.mul_le_mul_left m htx1
  rw [Nat.min_eq_left h1, Nat.succ_mul]
  omega

lemma length_tilePixels (p : Plane) (gx gy tx ty : Nat) :
    (tilePixels p gx gy tx ty).length
      = (tileHi p.W gx tx - tileLo p.W gx tx)
        * (tileHi p.H gy ty - tileLo p.H gy ty) := by
  unfold tilePixels
  exact length_flatMap_range _ _ _

lemma mem_tilePixels_uniform (W H V gx gy tx ty b : Nat)
    (hb : b ∈ tilePixels (uniformPlane W H V) gx gy tx ty) : b = V := by
  unfold tilePixels at hb
  simp only [uniformPlane, List.mem_flatMap, List.mem_map, List.mem_range] at hb
  obtain ⟨dy, hdy, dx, hdx, rfl⟩ := hb
  have hWhi : tileHi W gx tx ≤ W := Nat.min_le_right _ _
  have hHhi : tileHi H gy ty ≤ H := Nat.min_le_right _ _
  refine pix_uniform W H V _ _ ?_ ?_ <;> omega

lemma tilePixels_uniform (W H V gx gy tx ty m n : Nat)
    (hgx : 1 ≤ gx) (hgy : 1 ≤ gy) (htx : tx < gx) (hty : ty < gy)
    (hm : W = gx * m) (hn : H = gy * n) :
    tilePixels (uniformPlane W H V) gx gy tx ty
      = List.replicate (m * n) V := by
  apply List.eq_replicate.mpr
  constructor
  · rw [length_tilePixels]
    show (tileHi W gx tx - tileLo W gx tx) * (tileHi H gy ty - tileLo H gy ty)
      = m * n
    rw [tileWidth_of_dvd W gx tx m hgx hm htx,
      tileWidth_of_dvd H gy ty n hgy hn hty]
  · intro b hb
    exact mem_tilePixels_uniform W H V gx gy tx ty b hb

lemma tileMapping_uniform (W H V gx gy L : Nat) (f : ℚ) (tx ty m n : Nat)
    (hgx : 1 ≤ gx) (hgy : 1 ≤ gy) (htx : tx < gx) (hty : ty < gy)
    (hm : W = gx * m) (hn : H = gy * n) :
    tileMapping (uniformPlane W H V) gx gy L f tx ty
      = mappingOf (clipAndRedistribute (histogram L (List.replicate (m * n) V))
          f (m * n)) (m * n) L := by
  unfold tileMapping
  simp only []
  rw [tilePixels_uniform W H V gx gy tx ty m n hgx hgy htx hty hm hn]
  simp

/-- C8 counterexample: the claim fails as stated.  The all-1 plane of
width 3 and height 2 with the valid grid spec `(2, 1)`, `L = 8` and clip
factor 2 produces the non-constant output `[5, 6, 7, 5, 6, 7]`: the two
tiles have different pixel counts (4 and 2), hence different integer clip
limits and different mappings. -/
theorem C8_uniform_not_constant :
    ¬ ∃ c, ∀ v ∈ (clahePlane (uniformPlane 3 2 1) 2 1 8 (2 : ℚ)).data, v = c := by
  intro hex
  obtain ⟨c, hc⟩ := hex
  have h5 : (5 : Nat) ∈ (clahePlane (uniformPlane 3 2 1) 2 1 8 (2 : ℚ)).data := by
    with_unfolding_all decide
  have h7 : (7 : Nat) ∈ (clahePlane (uniformPlane 3 2 1) 2 1 8 (2 : ℚ)).data := by
    with_unfolding_all decide
  have e5 := hc 5 h5
  have e7 := hc 7 h7
  omega

/-- C8 (amended): on a uniform plane, for every valid grid spec whose
grid evenly divides the plane dimensions (so all tiles have the same
pixel count) and every clip factor, the output plane is constant. -/
theorem C8_uniform_plane_constant (W H V gx gy L : Nat) (f : ℚ)
    (hW : 1 ≤ W) (hH : 1 ≤ H) (hgx : 1 ≤ gx) (hgy : 1 ≤ gy) (hL : 1 ≤ L)
    (hdx : gx ∣ W) (hdy : gy ∣ H) :
    ∃ c, ∀ v ∈ (clahePlane (uniformPlane W H V) gx gy L f).data, v = c := by
  obtain ⟨m, hm⟩ := hdx
  obtain ⟨n, hn⟩ := hdy
  refine ⟨(max 0 (min ((L : ℤ) - 1)
    ((mappingOf (clipAndRedistribute (histogram L (List.replicate (m * n) V))
      f (m * n)) (m * n) L).getD V 0 : ℤ))).toNat, ?_⟩
  intro v hv
  unfold clahePlane at hv
  obtain ⟨x, y, hxW, hyH, rfl⟩ := mem_interp_data _ _ _ _ _ v hv
  have hMall : ∀ tx ty, tx < gx → ty < gy →
      tileMapping (uniformPlane W H V) gx gy L f tx ty
        = mappingOf (clipAndRedistribute (histogram L (List.replicate (m * n) V))
            f (m * n)) (m * n) L :=
    fun tx ty htx hty =>
      tileMapping_uniform W H V gx gy L f tx ty m n hgx hgy htx hty hm hn
  rw [interpPixel_const_maps _ _ gx gy L hgx hgy _ _ hMall x y _,
    pix_uniform W H V x y hxW hyH]

/-- Witness for the amended C8: all-3 plane of size 4x4, 2x2 grid, L = 8,
clip factor 2. -/
theorem C8_uniform_plane_constant_witness :
    ((1 : Nat) ≤ 4 ∧ (1 : Nat) ≤ 2 ∧ (1 : Nat) ≤ 8 ∧ (2 : Nat) ∣ 4) ∧
    ∃ c, ∀ v ∈ (clahePlane (uniformPlane 4 4 3) 2 2 8 (2 : ℚ)).data, v = c :=
  ⟨⟨by decide, by decide, by decide, by decide⟩,
    C8_uniform_plane_constant 4 4 3 2 2 8 2 (by decide) (by decide) (by decide)
      (by decide) (by decide) (by decide) (by decide)⟩
